import Mathlib

/-!
Shallow embedding of `hdnet/spikes.py` (class `Spikes`): spike-train binning,
binarization, trial-shape normalization, activity ranking, windowed feature
extraction and per-trial covariance.  Real values are modelled as rationals;
numpy arrays of fixed known rank are modelled as total functions out of `ℕ`
together with explicit dimensions, and Python exceptions (IndexError,
ValueError on negative dimensions, …) as `Option.none`.
-/

namespace HDNet

/-- The canonical `T × N × M` spike tensor (`self._spikes_arr` with
`self._T, self._N, self._M`).  Entries are meaningful for indices
`t < T`, `n < N`, `m < M`. -/
structure Spikes where
  T : ℕ
  N : ℕ
  M : ℕ
  arr : ℕ → ℕ → ℕ → ℚ

/-- Default tensor used only as an `Option.getD` fallback. -/
def defaultSpikes : Spikes := ⟨0, 0, 0, fun _ _ _ => 0⟩

/-- Default matrix used only as a `getD` fallback. -/
def zeroMat : ℕ → ℕ → ℚ := fun _ _ => 0

/-- Build a `Spikes` tensor from a nested list literal (used for concrete
test inputs; dimensions are read off the (rectangular) list). -/
def ofList (l : List (List (List ℚ))) : Spikes :=
  ⟨l.length, (l.headD []).length, ((l.headD []).headD []).length,
   fun t n m => ((l.getD t []).getD n []).getD m 0⟩

/-- Model of `np.sign` on a real scalar. -/
def qsign (x : ℚ) : ℚ := if 0 < x then 1 else if x < 0 then -1 else 0

/-- Element-wise map of `Spikes.preprocess`: `(np.sign(x) + 1) // 2`,
where `//` on floats is floor division. -/
def binarize (x : ℚ) : ℚ := (⌊(qsign x + 1) / 2⌋ : ℤ)

/-- `Spikes.preprocess`: `self._spikes_arr = np.double((np.sign(arr) + 1) // 2)`,
an element-wise, shape-preserving update. -/
def preprocessSpikes (s : Spikes) : Spikes :=
  { s with arr := fun t n m => binarize (s.arr t n m) }

/-- Shape handling at the end of `Spikes.__init__`:
`if len(shape) == 2: arr = arr.reshape((1, shape[0], shape[1]))` followed by
`T, N, M = arr.shape[0], arr.shape[1], arr.shape[2]`.
Reading `shape[1]` (resp. `shape[2]`) of a 0- or 1-axis array raises an
IndexError, modelled as `none`.  There is no axis-count validation beyond
that: arrays with more than 3 axes are accepted, with `T, N, M` taken from
the first three axes. -/
def initShape (shape : List ℕ) : Option (ℕ × ℕ × ℕ × List ℕ) :=
  let sh := if shape.length = 2 then 1 :: shape else shape
  match sh[0]?, sh[1]?, sh[2]? with
  | some t, some n, some m => some (t, n, m, sh)
  | _, _, _ => none

/-- Python truthiness of the `trials` argument: `trials = trials or range(self._T)`.
`None` and the empty list are both falsy, so both select all trials. -/
def effTrials (trials : Option (List ℕ)) (T : ℕ) : List ℕ :=
  match trials with
  | none => List.range T
  | some l => if l.isEmpty then List.range T else l

/-- Python truthiness of the `stop` argument: `stop = stop or self._M`.
`None` and `0` are both falsy, so both select `M`. -/
def stopEff (s : Spikes) (stop : Option ℕ) : ℕ :=
  match stop with
  | none => s.M
  | some v => if v = 0 then s.M else v

/-! ### Temporal Binning Engine (`Spikes.load_from_spikes_times`) -/

/-- One step of the binning loop body: `a = int(spike_time / (1000. * bin_size))`
and `if a < M: arr[c, a] = 1` (timestamps past the horizon are dropped). -/
def binStep (M b : ℕ) (row : List ℚ) (t : ℕ) : List ℚ :=
  let a := t / (1000 * b)
  if a < M then row.set a 1 else row

/-- One row of the binning loop: starting from the zero row of width `M`,
apply `binStep` for each timestamp of the source. -/
def binRow (M b : ℕ) (times : List ℕ) : List ℚ :=
  times.foldl (binStep M b) (List.replicate M 0)

/-- The horizon `np.int(self.max_millisec)`: the maximum over sources of the
truncated millisecond value of the *last* timestamp (`spike_times[-1] / 10**3`;
truncating each term commutes with the max since truncation is monotone). -/
def maxLastMs (lists : List (List ℕ)) : ℕ :=
  (lists.map (fun l => l.getLastD 0 / 1000)).foldl max 0

/-- `Spikes.load_from_spikes_times`: build the `N × M` binary occupancy grid
from per-source microsecond timestamp lists, with
`M = np.int(max_millisec) / bin_size + 1` (Python 2 integer division).
An empty collection is a no-op (the method returns without building a grid)
and an empty per-source list raises an IndexError at `spike_times[-1]`;
both are modelled as `none`. -/
def loadFromSpikesTimes (lists : List (List ℕ)) (b : ℕ) : Option (List (List ℚ)) :=
  if lists.isEmpty then none
  else if lists.any (·.isEmpty) then none
  else
    let M := maxLastMs lists / b + 1
    some (lists.map (fun times => binRow M b times))

/-! ### Windowed Feature Extractor (`Spikes.to_windowed`) -/

/-- Model of `.ravel()` (C-order flattening) of an `N × w` matrix given as a
function: flat index `j` reads row `j / w`, column `j % w`. -/
def ravel (w : ℕ) (f : ℕ → ℕ → ℚ) : ℕ → ℚ := fun j => f (j / w) (j % w)

/-- The windowed array `X`:
`X[c, :, i] = spikes_arr[trials[c], :, i : window_size + i].ravel()`. -/
def windowedX (s : Spikes) (ws : ℕ) (tr : List ℕ) : ℕ → ℕ → ℕ → ℚ :=
  fun c j i => ravel ws (fun n k => s.arr (tr.getD c 0) n (i + k)) j

/-- `Spikes.to_windowed` without `reshape`: allocates
`X = np.zeros((len(trials), window_size * N, M - window_size + 1))` — a
negative last dimension (when `window_size > M + 1`) raises a ValueError —
fills it as in `windowedX`, and returns `Spikes(spikes_arr=X)`, whose
constructor applies `preprocess` to `X`.  An out-of-range trial index
raises an IndexError inside the fill loop.  Both errors are `none`. -/
def toWindowed (s : Spikes) (ws : ℕ) (trials : Option (List ℕ)) : Option Spikes :=
  let tr := effTrials trials s.T
  if s.M + 1 < ws then none
  else if tr.all (· < s.T) then
    some (preprocessSpikes ⟨tr.length, ws * s.N, s.M + 1 - ws, windowedX s ws tr⟩)
  else none

/-- `Spikes.to_windowed` with `reshape=True`: returns the
`(len(trials) * (M - window_size + 1)) × (window_size * N)` matrix `Y` with
`Y[t * W + j, :] = X[t, :, j]` (`tot` runs trial-major, offset-minor),
together with its two dimensions. -/
def toWindowedReshaped (s : Spikes) (ws : ℕ) (trials : Option (List ℕ)) :
    Option ((ℕ → ℕ → ℚ) × ℕ × ℕ) :=
  let tr := effTrials trials s.T
  let W := s.M + 1 - ws
  if s.M + 1 < ws then none
  else if tr.all (· < s.T) then
    some (fun r c => windowedX s ws tr (r / W) c (r % W), tr.length * W, ws * s.N)
  else none

/-! ### Activity Ranker (`Spikes.restrict_to_most_active_neurons`) -/

/-- Per-source mean activity `spikes_arr.mean(axis=0).mean(axis=1)`:
mean over trials first, then mean over time bins. -/
def activity (s : Spikes) (n : ℕ) : ℚ :=
  (∑ m ∈ Finset.range s.M, (∑ t ∈ Finset.range s.T, s.arr t n m) / s.T) / s.M

/-- Model of `activity.argsort()`: the source indices `0, …, N-1` sorted
ascending by activity (a sorting permutation; numpy's tie order is
unspecified). -/
def argsortActivity (s : Spikes) : List ℕ :=
  (List.range s.N).mergeSort (fun a b => decide (activity s a ≤ activity s b))

/-- `Spikes.restrict_to_most_active_neurons`: `K = top_neurons or N` (so both
`None` and `0` select `N`), `idx = activity.argsort()`,
`selected = idx[-K:]`, `mean_activities = activity[selected]`, and the held
tensor is replaced by `spikes_arr[:, selected, :]` with `N := K`.
Returns `(selected, mean_activities, new tensor)`. -/
def restrictMostActive (s : Spikes) (top : Option ℕ) :
    List ℕ × List ℚ × Spikes :=
  let K := match top with
    | none => s.N
    | some k => if k = 0 then s.N else k
  let idx := argsortActivity s
  let sel := idx.drop (idx.length - K)
  (sel, sel.map (activity s),
   ⟨s.T, K, s.M, fun t n m => s.arr t (sel.getD n 0) m⟩)

/-! ### Rasterizer (`Spikes.rasterize`) -/

/-- `Spikes.rasterize` (return path): slice `spikes_arr[trials, :, start:stop]`
and reshape it to `(len(trials) * N) × (stop - start)`.  An out-of-range
trial index raises an IndexError; a slice whose element count does not match
the reshape target (`stop > M` or `start > stop`) raises a ValueError.
Returns the matrix together with its two dimensions. -/
def rasterize (s : Spikes) (trials : Option (List ℕ)) (start : ℕ) (stop : Option ℕ) :
    Option ((ℕ → ℕ → ℚ) × ℕ × ℕ) :=
  let stopE := stopEff s stop
  let tr := effTrials trials s.T
  if tr.all (· < s.T) then
    if stopE ≤ s.M ∧ start ≤ stopE then
      some (fun r c => s.arr (tr.getD (r / s.N) 0) (r % s.N) (start + c),
            tr.length * s.N, stopE - start)
    else none
  else none

/-! ### Covariance Engine (`Spikes.covariance`) -/

/-- Number of time-bin samples of the slice `arr[t, :, start:stop]`
(Python slicing clamps `stop` to `M`). -/
def covSamples (s : Spikes) (start stopE : ℕ) : ℕ := min stopE s.M - start

/-- Mean over the `m` observations of row `i` (numpy's row mean inside
`np.cov`). -/
def rowMean (x : ℕ → ℕ → ℚ) (m : ℕ) (i : ℕ) : ℚ :=
  (∑ k ∈ Finset.range m, x i k) / m

/-- The `np.cov` normalization factor `fact = m - ddof` with default
`ddof = 1`, clamped to `0` when nonpositive (numpy warns and divides by
zero, producing NaN/Inf; rational division by `0` yields `0` here — the
claims about covariance values are stated for `m ≥ 2`). -/
def covDenom (m : ℕ) : ℚ := if m ≤ 1 then 0 else (m : ℚ) - 1

/-- `np.cov(x)` for an `N × m` matrix of observations (rows are variables,
columns are samples): mean-centred cross products divided by `m - 1`. -/
def npCov (x : ℕ → ℕ → ℚ) (m : ℕ) : ℕ → ℕ → ℚ :=
  fun i j =>
    (∑ k ∈ Finset.range m, (x i k - rowMean x m i) * (x j k - rowMean x m j)) /
      covDenom m

/-- The sliced, trial-sub-selected array
`sub_spikes_arr = spikes_arr[trials, :, start:stop]`: position `p` holds the
data of original trial `trials[p]`. -/
def covSub (s : Spikes) (tr : List ℕ) (start : ℕ) : ℕ → ℕ → ℕ → ℚ :=
  fun p n k => s.arr (tr.getD p 0) n (start + k)

/-- The fill loop `for t, trial in enumerate(trials): new_arr[t] =
np.cov(sub_spikes_arr[trial])`.  Note that `sub_spikes_arr` is indexed by
the original trial id `trial = trials[t]`, not by the position `t`. -/
def covRaw (s : Spikes) (tr : List ℕ) (start m : ℕ) : List (ℕ → ℕ → ℚ) :=
  (List.range tr.length).map (fun t => npCov (covSub s tr start (tr.getD t 0)) m)

/-- All entries of the filled `len(trials) × N × N` array `new_arr`
(the domain of `new_arr.max()`). -/
def covEntries (s : Spikes) (tr : List ℕ) (start m : ℕ) : List ℚ :=
  (List.range tr.length).flatMap fun t =>
    (List.range s.N).flatMap fun i =>
      (List.range s.N).map fun j => ((covRaw s tr start m).getD t zeroMat) i j

/-- The shared normalization divisor `new_arr.max()` (as an `Option`:
`max` of an empty array raises a ValueError). -/
def covGlobalMax (s : Spikes) (trials : Option (List ℕ)) (start : ℕ)
    (stop : Option ℕ) : Option ℚ :=
  let tr := effTrials trials s.T
  (covEntries s tr start (covSamples s start (stopEff s stop))).maximum

/-- `Spikes.covariance` (return path): per-trial `np.cov` over the sliced
data, then every entry divided by the single global maximum.  Out-of-range
indices in `spikes_arr[trials]` or in the buggy inner read
`sub_spikes_arr[trial]` raise IndexErrors (`none`); division by a zero
maximum is unguarded in the source (NaN/Inf; rational division by zero
yields `0` here). -/
def covariance (s : Spikes) (trials : Option (List ℕ)) (start : ℕ)
    (stop : Option ℕ) : Option (List (ℕ → ℕ → ℚ)) :=
  let stopE := stopEff s stop
  let tr := effTrials trials s.T
  let m := covSamples s start stopE
  if tr.all (· < s.T) then
    if tr.all (· < tr.length) then
      match (covEntries s tr start m).maximum with
      | none => none
      | some mx => some ((covRaw s tr start m).map (fun Q i j => Q i j / mx))
    else none
  else none

/-! ### Helper lemmas -/

theorem binarize_of_pos {x : ℚ} (h : 0 < x) : binarize x = 1 := by
  simp [binarize, qsign, if_pos h]

theorem binarize_of_zero : binarize (0 : ℚ) = 0 := by
  have h : ⌊(0 + 1 : ℚ) / 2⌋ = 0 := by
    rw [Int.floor_eq_zero_iff, Set.mem_Ico]
    constructor <;> norm_num
  simp only [binarize, qsign, lt_self_iff_false, if_false, h]
  norm_num

theorem binarize_of_neg {x : ℚ} (h : x < 0) : binarize x = 0 := by
  have h0 : ¬ (0 < x) := by linarith
  simp [binarize, qsign, if_neg h0, if_pos h]

theorem binarize_mem (x : ℚ) : binarize x = 0 ∨ binarize x = 1 := by
  rcases lt_trichotomy x 0 with h | h | h
  · exact Or.inl (binarize_of_neg h)
  · exact Or.inl (h ▸ binarize_of_zero)
  · exact Or.inr (binarize_of_pos h)

theorem binarize_of_binary {x : ℚ} (h : x = 0 ∨ x = 1) : binarize x = x := by
  rcases h with h | h <;> subst h
  · exact binarize_of_zero
  · exact binarize_of_pos one_pos

theorem binStep_length (M b : ℕ) (row : List ℚ) (t : ℕ) :
    (binStep M b row t).length = row.length := by
  rw [binStep]
  by_cases h : t / (1000 * b) < M
  · simp only [if_pos h, List.length_set]
  · simp only [if_neg h]

theorem binFold_length (M b : ℕ) (times : List ℕ) (row : List ℚ) :
    (times.foldl (binStep M b) row).length = row.length := by
  induction times generalizing row with
  | nil => rfl
  | cons t ts ih => rw [List.foldl_cons, ih, binStep_length]

theorem binFold_getD (M b : ℕ) (times : List ℕ) (row : List ℚ)
    (hrow : row.length = M) (a : ℕ) (ha : a < M) :
    (times.foldl (binStep M b) row).getD a 0 =
      if times.any (fun t => t / (1000 * b) == a) then 1 else row.getD a 0 := by
  induction times generalizing row with
  | nil => simp
  | cons t ts ih =>
    rw [List.foldl_cons, ih (binStep M b row t) (by rw [binStep_length, hrow])]
    by_cases ht : t / (1000 * b) = a
    · have hset : binStep M b row t = row.set a 1 := by
        rw [binStep, ht, if_pos ha]
      have h1 : (row.set a 1).getD a 0 = 1 := by
        rw [List.getD_eq_getElem?_getD, List.getElem?_set_self (by omega), Option.getD_some]
      rw [hset, h1]
      simp [ht]
    · have hkeep : (binStep M b row t).getD a 0 = row.getD a 0 := by
        rw [binStep]
        split
        · rw [List.getD_eq_getElem?_getD, List.getElem?_set_ne ht,
            ← List.getD_eq_getElem?_getD]
        · rfl
      rw [hkeep]
      have : (t / (1000 * b) == a) = false := by simpa using ht
      simp [this]

theorem binRow_length (M b : ℕ) (times : List ℕ) :
    (binRow M b times).length = M := by
  rw [binRow, binFold_length, List.length_replicate]

theorem binRow_getD (M b : ℕ) (times : List ℕ) (a : ℕ) (ha : a < M) :
    (binRow M b times).getD a 0 =
      if times.any (fun t => t / (1000 * b) == a) then 1 else 0 := by
  rw [binRow, binFold_getD M b times _ (List.length_replicate ..) a ha]
  have : (List.replicate M (0 : ℚ)).getD a 0 = 0 := by
    rw [List.getD_eq_getElem?_getD, List.getElem?_replicate_of_lt ha, Option.getD_some]
  rw [this]

theorem foldl_max_div (k : ℕ) (xs : List ℕ) :
    ∀ a : ℕ, (xs.map (· / k)).foldl max (a / k) = xs.foldl max a / k := by
  induction xs with
  | nil => intro a; rfl
  | cons x ys ih =>
    intro a
    rw [List.map_cons, List.foldl_cons, List.foldl_cons]
    have hmax : max (a / k) (x / k) = max a x / k := by
      rcases le_total a x with h | h
      · rw [max_eq_right h, max_eq_right (Nat.div_le_div_right h)]
      · rw [max_eq_left h, max_eq_left (Nat.div_le_div_right h)]
    rw [hmax, ih]

theorem maxLastMs_eq (lists : List (List ℕ)) :
    maxLastMs lists = (lists.map (fun l => l.getLastD 0)).foldl max 0 / 1000 := by
  rw [maxLastMs]
  have h0 : (0 : ℕ) = 0 / 1000 := rfl
  rw [show ((lists.map (fun l => l.getLastD 0 / 1000)) =
      (lists.map (fun l => l.getLastD 0)).map (· / 1000)) from by
    rw [List.map_map]; rfl]
  rw [h0, foldl_max_div]

theorem mul_add_div_mod (w t j : ℕ) (hj : j < w) :
    (t * w + j) / w = t ∧ (t * w + j) % w = j := by
  constructor
  · rw [show t * w + j = j + t * w by omega, Nat.add_mul_div_right _ _ (by omega : 0 < w),
      Nat.div_eq_of_lt hj, Nat.zero_add]
  · rw [show t * w + j = j + t * w by omega, Nat.add_mul_mod_self_right,
      Nat.mod_eq_of_lt hj]

theorem ravel_flatten (w : ℕ) (f : ℕ → ℕ → ℚ) (n k : ℕ) (hk : k < w) :
    ravel w f (n * w + k) = f n k := by
  rw [ravel, (mul_add_div_mod w n k hk).1, (mul_add_div_mod w n k hk).2]

theorem effTrials_all (trials : Option (List ℕ)) (T : ℕ)
    (h : ∀ x ∈ effTrials trials T, x < T) :
    (effTrials trials T).all (· < T) = true :=
  List.all_eq_true.mpr fun x hx => decide_eq_true (h x hx)

theorem effTrials_getD_mem (trials : Option (List ℕ)) (T c : ℕ)
    (hc : c < (effTrials trials T).length) :
    (effTrials trials T).getD c 0 ∈ effTrials trials T := by
  rw [List.getD_eq_getElem?_getD, List.getElem?_eq_getElem hc, Option.getD_some]
  exact List.getElem_mem hc

theorem npCov_symm (x : ℕ → ℕ → ℚ) (m i j : ℕ) :
    npCov x m i j = npCov x m j i := by
  unfold npCov
  congr 1
  exact Finset.sum_congr rfl fun k _ => mul_comm _ _

theorem covDenom_nonneg (m : ℕ) : 0 ≤ covDenom m := by
  rw [covDenom]
  by_cases h : m ≤ 1
  · rw [if_pos h]
  · rw [if_neg h]
    have : (2 : ℚ) ≤ (m : ℚ) := by
      have : 2 ≤ m := by omega
      exact_mod_cast this
    linarith

theorem covDenom_pos (m : ℕ) (hm : 2 ≤ m) : 0 < covDenom m := by
  rw [covDenom, if_neg (by omega : ¬ m ≤ 1)]
  have : (2 : ℚ) ≤ (m : ℚ) := by exact_mod_cast hm
  linarith

theorem npCov_diag_nonneg (x : ℕ → ℕ → ℚ) (m i : ℕ) : 0 ≤ npCov x m i i :=
  div_nonneg (Finset.sum_nonneg fun _ _ => mul_self_nonneg _) (covDenom_nonneg m)

theorem npCov_sq_le (x : ℕ → ℕ → ℚ) (m i j : ℕ) :
    (npCov x m i j) ^ 2 ≤ npCov x m i i * npCov x m j j := by
  unfold npCov
  have hcs : (∑ k ∈ Finset.range m,
        (x i k - rowMean x m i) * (x j k - rowMean x m j)) ^ 2 ≤
      (∑ k ∈ Finset.range m,
        (x i k - rowMean x m i) * (x i k - rowMean x m i)) *
      (∑ k ∈ Finset.range m,
        (x j k - rowMean x m j) * (x j k - rowMean x m j)) := by
    have h := Finset.sum_mul_sq_le_sq_mul_sq (Finset.range m)
      (fun k => x i k - rowMean x m i) (fun k => x j k - rowMean x m j)
    calc (∑ k ∈ Finset.range m,
            (x i k - rowMean x m i) * (x j k - rowMean x m j)) ^ 2 ≤
          (∑ k ∈ Finset.range m, (x i k - rowMean x m i) ^ 2) *
          (∑ k ∈ Finset.range m, (x j k - rowMean x m j) ^ 2) := h
      _ = _ := by
          congr 1 <;> exact Finset.sum_congr rfl fun k _ => (pow_two _)
  by_cases hd : covDenom m = 0
  · simp [hd]
  · have hdpos : 0 < covDenom m := lt_of_le_of_ne (covDenom_nonneg m) (Ne.symm hd)
    rw [div_pow, div_mul_div_comm, ← sq]
    exact (div_le_div_iff_of_pos_right (by positivity)).mpr hcs

theorem covRaw_getD (s : Spikes) (tr : List ℕ) (start m t : ℕ)
    (ht : t < tr.length) :
    (covRaw s tr start m).getD t zeroMat =
      npCov (covSub s tr start (tr.getD t 0)) m := by
  rw [covRaw, List.getD_eq_getElem?_getD, List.getElem?_map, List.getElem?_range ht]
  rfl

theorem covEntries_mem (s : Spikes) (tr : List ℕ) (start m t i j : ℕ)
    (ht : t < tr.length) (hi : i < s.N) (hj : j < s.N) :
    ((covRaw s tr start m).getD t zeroMat) i j ∈ covEntries s tr start m := by
  rw [covEntries]
  refine List.mem_flatMap.mpr ⟨t, List.mem_range.mpr ht, ?_⟩
  refine List.mem_flatMap.mpr ⟨i, List.mem_range.mpr hi, ?_⟩
  exact List.mem_map.mpr ⟨j, List.mem_range.mpr hj, rfl⟩

/-! ### Claim theorems -/

/-- C3: for a nonempty collection of per-source, internally time-sorted,
nonempty lists of microsecond timestamps and a positive bin width `b` (ms),
the Temporal Binning Engine returns (without raising) an `N × M` grid with
`M = floor(max_timestamp_ms / b) + 1` where `max_timestamp_ms` is the
largest last timestamp in (floored) milliseconds; cell `(c, a)` is `1`
exactly when some timestamp of source `c` falls in bin `a < M` and `0`
otherwise (timestamps binning past the horizon are dropped, which the
in-range cell characterization makes silent); and the concrete input
`[[1000, 2000], [1500]]` with `b = 1` yields the `2 × 3` grid with ones
exactly at `(0,1)`, `(0,2)` and `(1,1)`. -/
theorem loadFromSpikesTimes_spec (lists : List (List ℕ)) (b : ℕ)
    (hb : 0 < b) (hne : lists ≠ [])
    (hnonempty : ∀ l ∈ lists, l ≠ [])
    (hsorted : ∀ l ∈ lists, l.Chain' (· ≤ ·)) :
    (loadFromSpikesTimes lists b).isSome = true ∧
    ((loadFromSpikesTimes lists b).getD []).length = lists.length ∧
    (∀ row ∈ (loadFromSpikesTimes lists b).getD [],
      row.length = (lists.map (fun l => l.getLastD 0)).foldl max 0 / 1000 / b + 1) ∧
    (∀ c < lists.length, ∀ a < maxLastMs lists / b + 1,
      (((loadFromSpikesTimes lists b).getD []).getD c []).getD a 0 =
        if (lists.getD c []).any (fun t => t / (1000 * b) == a) then 1 else 0) ∧
    loadFromSpikesTimes [[1000, 2000], [1500]] 1 = some [[0, 1, 1], [0, 1, 0]] := by
  have hE : lists.isEmpty = false := by
    cases lists with
    | nil => exact absurd rfl hne
    | cons _ _ => rfl
  have hA : lists.any (·.isEmpty) = false := by
    rw [List.any_eq_false]
    intro l hl
    have := hnonempty l hl
    cases l with
    | nil => exact absurd rfl this
    | cons _ _ => simp
  have hval : loadFromSpikesTimes lists b =
      some (lists.map (fun times => binRow (maxLastMs lists / b + 1) b times)) := by
    rw [loadFromSpikesTimes, hE, hA]
    rfl
  refine ⟨by rw [hval]; rfl, ?_, ?_, ?_, by decide⟩
  · rw [hval, Option.getD_some, List.length_map]
  · intro row hrow
    rw [hval, Option.getD_some] at hrow
    obtain ⟨times, _, rfl⟩ := List.mem_map.mp hrow
    rw [binRow_length, maxLastMs_eq]
  · intro c hc a ha
    rw [hval, Option.getD_some]
    have hgc : (lists.map (fun times => binRow (maxLastMs lists / b + 1) b times)).getD c [] =
        binRow (maxLastMs lists / b + 1) b (lists.getD c []) := by
      rw [List.getD_eq_getElem?_getD, List.getElem?_map,
        List.getD_eq_getElem?_getD, List.getElem?_eq_getElem hc]
      rfl
    rw [hgc, binRow_getD _ _ _ _ ha]

/-- Witness for C3 at the claim's own concrete input. -/
theorem loadFromSpikesTimes_spec_witness :
    (loadFromSpikesTimes [[1000, 2000], [1500]] 1).isSome = true ∧
    loadFromSpikesTimes [[1000, 2000], [1500]] 1 = some [[0, 1, 1], [0, 1, 0]] :=
  ⟨(loadFromSpikesTimes_spec [[1000, 2000], [1500]] 1 (by decide) (by decide)
      (by decide) (by
        intro l hl
        simp only [List.mem_cons, List.not_mem_nil, or_false] at hl
        rcases hl with rfl | rfl <;> simp [List.chain'_cons])).1,
   (loadFromSpikesTimes_spec [[1000, 2000], [1500]] 1 (by decide) (by decide)
      (by decide) (by
        intro l hl
        simp only [List.mem_cons, List.not_mem_nil, or_false] at hl
        rcases hl with rfl | rfl <;> simp [List.chain'_cons])).2.2.2.2⟩

/-- C5: the Binarizer (`preprocess`) maps each element through
`(sign(x) + 1) // 2`, so strictly positive elements become `1`, zero and
strictly negative elements become `0`, the result only contains `{0, 1}`,
and the tensor's shape is unchanged. -/
theorem preprocess_binarizer_spec (s : Spikes) (x : ℚ) :
    (preprocessSpikes s).T = s.T ∧ (preprocessSpikes s).N = s.N ∧
    (preprocessSpikes s).M = s.M ∧
    (∀ t n m, (preprocessSpikes s).arr t n m = binarize (s.arr t n m)) ∧
    (0 < x → binarize x = 1) ∧ (x = 0 → binarize x = 0) ∧
    (x < 0 → binarize x = 0) ∧ (binarize x = 0 ∨ binarize x = 1) := by
  refine ⟨rfl, rfl, rfl, fun _ _ _ => rfl, ?_, ?_, ?_, binarize_mem x⟩
  · exact binarize_of_pos
  · intro h; exact h ▸ binarize_of_zero
  · exact binarize_of_neg

/-- Witness for C5 at concrete scalars `7/2`, `0` and `-3`. -/
theorem preprocess_binarizer_spec_witness :
    binarize (7/2 : ℚ) = 1 ∧ binarize (0 : ℚ) = 0 ∧ binarize (-3 : ℚ) = 0 :=
  ⟨(preprocess_binarizer_spec defaultSpikes (7/2)).2.2.2.2.1 (by norm_num),
   (preprocess_binarizer_spec defaultSpikes 0).2.2.2.2.2.1 rfl,
   (preprocess_binarizer_spec defaultSpikes (-3)).2.2.2.2.2.2.1 (by norm_num)⟩

/-- C4: for a binary `T × N × M` tensor, valid selected trials and
`1 ≤ window_size ≤ M`, the Windowed Feature Extractor succeeds with shape
`|trials| × (window_size · N) × (M − window_size + 1)`; the output vector at
`(trial c, offset i)` is the source-major, time-minor flattening of the
selected trial's `N × window_size` slice at `[i, i + window_size)`; for
`window_size = 1` (default trials) the output equals the original tensor;
with reshape requested the output is a
`(|trials| · (M − window_size + 1)) × (window_size · N)` matrix whose row
`t · (M − window_size + 1) + j` is the flattened window of trial `t` at
offset `j` (trial-major, offset-minor); and a `1 × 4 × 5` binary tensor
with `window_size = 2` yields a `1 × 8 × 4` tensor and, reshaped, a
`4 × 8` matrix. -/
theorem toWindowed_spec (s : Spikes) (ws : ℕ) (trials : Option (List ℕ))
    (hws1 : 1 ≤ ws) (hwsM : ws ≤ s.M)
    (htr : ∀ x ∈ effTrials trials s.T, x < s.T)
    (hbin : ∀ t < s.T, ∀ n < s.N, ∀ m < s.M, s.arr t n m = 0 ∨ s.arr t n m = 1) :
    (toWindowed s ws trials).isSome = true ∧
    ((toWindowed s ws trials).getD defaultSpikes).T = (effTrials trials s.T).length ∧
    ((toWindowed s ws trials).getD defaultSpikes).N = ws * s.N ∧
    ((toWindowed s ws trials).getD defaultSpikes).M = s.M - ws + 1 ∧
    (∀ c < (effTrials trials s.T).length, ∀ n < s.N, ∀ k < ws, ∀ i ≤ s.M - ws,
      ((toWindowed s ws trials).getD defaultSpikes).arr c (n * ws + k) i =
        s.arr ((effTrials trials s.T).getD c 0) n (i + k)) ∧
    (ws = 1 → trials = none → ∀ c < s.T, ∀ n < s.N, ∀ i < s.M,
      ((toWindowed s ws trials).getD defaultSpikes).arr c n i = s.arr c n i) ∧
    (toWindowedReshaped s ws trials).isSome = true ∧
    ((toWindowedReshaped s ws trials).getD (zeroMat, 0, 0)).2.1 =
      (effTrials trials s.T).length * (s.M - ws + 1) ∧
    ((toWindowedReshaped s ws trials).getD (zeroMat, 0, 0)).2.2 = ws * s.N ∧
    (∀ t < (effTrials trials s.T).length, ∀ j, j ≤ s.M - ws → ∀ n < s.N, ∀ k < ws,
      ((toWindowedReshaped s ws trials).getD (zeroMat, 0, 0)).1
          (t * (s.M - ws + 1) + j) (n * ws + k) =
        s.arr ((effTrials trials s.T).getD t 0) n (j + k)) ∧
    ((toWindowed (ofList [[[1,0,1,0,1],[0,1,0,1,0],[1,1,1,1,1],[0,0,0,0,0]]]) 2
        none).getD defaultSpikes).T = 1 ∧
    ((toWindowed (ofList [[[1,0,1,0,1],[0,1,0,1,0],[1,1,1,1,1],[0,0,0,0,0]]]) 2
        none).getD defaultSpikes).N = 8 ∧
    ((toWindowed (ofList [[[1,0,1,0,1],[0,1,0,1,0],[1,1,1,1,1],[0,0,0,0,0]]]) 2
        none).getD defaultSpikes).M = 4 ∧
    ((toWindowedReshaped (ofList [[[1,0,1,0,1],[0,1,0,1,0],[1,1,1,1,1],[0,0,0,0,0]]]) 2
        none).getD (zeroMat, 0, 0)).2 = (4, 8) := by
  have hnlt : ¬ (s.M + 1 < ws) := by omega
  have hall : (effTrials trials s.T).all (· < s.T) = true := effTrials_all trials s.T htr
  have hval : toWindowed s ws trials =
      some (preprocessSpikes ⟨(effTrials trials s.T).length, ws * s.N, s.M + 1 - ws,
        windowedX s ws (effTrials trials s.T)⟩) := by
    rw [toWindowed]
    simp only [hall, if_neg hnlt, if_true]
  have hvalR : toWindowedReshaped s ws trials =
      some (fun r c => windowedX s ws (effTrials trials s.T)
              (r / (s.M + 1 - ws)) c (r % (s.M + 1 - ws)),
            (effTrials trials s.T).length * (s.M + 1 - ws), ws * s.N) := by
    rw [toWindowedReshaped]
    simp only [hall, if_neg hnlt, if_true]
  have hMeq : s.M + 1 - ws = s.M - ws + 1 := by omega
  have hentry : ∀ c < (effTrials trials s.T).length, ∀ n < s.N, ∀ k < ws,
      ∀ i ≤ s.M - ws,
      windowedX s ws (effTrials trials s.T) c (n * ws + k) i =
        s.arr ((effTrials trials s.T).getD c 0) n (i + k) := by
    intro c _ n _ k hk i _
    rw [windowedX, ravel_flatten ws _ n k hk]
  have hbinval : ∀ c < (effTrials trials s.T).length, ∀ n < s.N, ∀ k < ws,
      ∀ i ≤ s.M - ws,
      binarize (windowedX s ws (effTrials trials s.T) c (n * ws + k) i) =
        s.arr ((effTrials trials s.T).getD c 0) n (i + k) := by
    intro c hc n hn k hk i hi
    rw [hentry c hc n hn k hk i hi]
    exact binarize_of_binary
      (hbin _ (htr _ (effTrials_getD_mem trials s.T c hc)) n hn (i + k) (by omega))
  refine ⟨by rw [hval]; rfl, by rw [hval]; rfl, by rw [hval]; rfl,
    by rw [hval, Option.getD_some]; exact hMeq, ?_, ?_, by rw [hvalR]; rfl,
    by rw [hvalR, Option.getD_some, hMeq], by rw [hvalR]; rfl, ?_, rfl, rfl, rfl, rfl⟩
  · intro c hc n hn k hk i hi
    rw [hval, Option.getD_some]
    exact hbinval c hc n hn k hk i hi
  · intro hws hnone c hc n hn i hi
    subst hws hnone
    have hc' : c < (effTrials none s.T).length := by
      simpa [effTrials] using hc
    have hgd : (effTrials none s.T).getD c 0 = c := by
      simp [effTrials, List.getD_eq_getElem?_getD, List.getElem?_range hc]
    have h2 := hbinval c hc' n hn 0 one_pos i (by omega)
    rw [hgd] at h2
    simp only [Nat.mul_one, Nat.add_zero] at h2
    rw [hval, Option.getD_some]
    exact h2
  · intro t ht j hj n hn k hk
    rw [hvalR, Option.getD_some]
    have hjlt : j < s.M + 1 - ws := by omega
    have hdm := mul_add_div_mod (s.M + 1 - ws) t j hjlt
    simp only [hMeq] at hdm ⊢
    rw [hdm.1, hdm.2]
    exact hentry t ht n hn k hk j hj

/-- Witness for C4 on a concrete binary `1 × 4 × 5` tensor with
`window_size = 2` (scenario B of the spec). -/
theorem toWindowed_spec_witness :
    (toWindowed (ofList [[[1,0,1,0,1],[0,1,0,1,0],[1,1,1,1,1],[0,0,0,0,0]]]) 2
      none).isSome = true ∧
    ((toWindowed (ofList [[[1,0,1,0,1],[0,1,0,1,0],[1,1,1,1,1],[0,0,0,0,0]]]) 2
      none).getD defaultSpikes).M = 4 ∧
    ((toWindowed (ofList [[[1,0,1,0,1],[0,1,0,1,0],[1,1,1,1,1],[0,0,0,0,0]]]) 2
      none).getD defaultSpikes).arr 0 (1 * 2 + 1) 0 =
      (ofList [[[1,0,1,0,1],[0,1,0,1,0],[1,1,1,1,1],[0,0,0,0,0]]]).arr 0 1 (0 + 1) := by
  have h := toWindowed_spec (ofList [[[1,0,1,0,1],[0,1,0,1,0],[1,1,1,1,1],[0,0,0,0,0]]])
    2 none (by decide) (by decide) (by decide) (by decide)
  exact ⟨h.1, h.2.2.2.2.2.2.2.2.2.2.2.2.1,
    h.2.2.2.2.1 0 (by decide) 1 (by decide) 1 (by decide) 0 (by decide)⟩

/-- C7 (counterexample): a four-axis input is not rejected — the
constructor silently accepts it and reads `T, N, M` off the first three
axes, contradicting the claim that more than 3 axes fails with a
ShapeError. -/
theorem initShape_four_axes_accepted :
    initShape [2, 3, 4, 5] = some (2, 3, 4, [2, 3, 4, 5]) := rfl

/-- C7 (amended): there is no ShapeError.  Inputs with fewer than 2 axes
fail with an IndexError while reading the shape; a 2-axis `N × M` input is
reshaped to `1 × N × M`; inputs with 3 or more axes are accepted as they
are, with `T, N, M` taken from the first three axes of the resulting
shape. -/
theorem initShape_spec (sh : List ℕ) :
    (sh.length ≤ 1 → initShape sh = none) ∧
    (sh.length = 2 →
      initShape sh = some (1, sh.getD 0 0, sh.getD 1 0, 1 :: sh)) ∧
    (3 ≤ sh.length →
      initShape sh = some (sh.getD 0 0, sh.getD 1 0, sh.getD 2 0, sh)) := by
  match sh with
  | [] => exact ⟨fun _ => rfl, by simp, by simp⟩
  | [a] => exact ⟨fun _ => rfl, by simp, by simp⟩
  | [a, b] => exact ⟨by simp, fun _ => rfl, by simp⟩
  | a :: b :: c :: t =>
    refine ⟨by simp, by simp, fun _ => ?_⟩
    have hlen : ¬ ((a :: b :: c :: t).length = 2) := by simp
    simp [initShape, if_neg hlen, List.getD]

/-- Witness for C7 at concrete shapes `[7]`, `[3, 4]` and `[2, 3, 4]`. -/
theorem initShape_spec_witness :
    initShape [7] = none ∧ initShape [3, 4] = some (1, 3, 4, [1, 3, 4]) ∧
    initShape [2, 3, 4] = some (2, 3, 4, [2, 3, 4]) :=
  ⟨(initShape_spec [7]).1 (by norm_num),
   (initShape_spec [3, 4]).2.1 rfl,
   (initShape_spec [2, 3, 4]).2.2 (by norm_num)⟩

/-- C8 (counterexample): on a tensor with `M = 1` time bin,
`window_size = 3 > M` does not yield an empty time axis — `np.zeros` is
called with the negative dimension `M - window_size + 1 = -1` and raises,
modelled as `none`. -/
theorem toWindowed_large_window_errors :
    toWindowed (ofList [[[0]]]) 3 none = none := rfl

/-- C8 (amended): only `window_size = M + 1` yields an empty time axis
without an error; any `window_size ≥ M + 2` makes the zero-allocation
dimension `M - window_size + 1` negative and raises a ValueError. -/
theorem toWindowed_overflow_spec (s : Spikes) (ws : ℕ) (trials : Option (List ℕ))
    (h : (effTrials trials s.T).all (· < s.T) = true) :
    (ws = s.M + 1 → (toWindowed s ws trials).isSome = true ∧
      ((toWindowed s ws trials).getD defaultSpikes).M = 0) ∧
    (s.M + 2 ≤ ws → toWindowed s ws trials = none) := by
  constructor
  · intro hws
    subst hws
    have hlt : ¬ (s.M + 1 < s.M + 1) := lt_irrefl _
    simp only [toWindowed, if_neg hlt, h, if_true]
    exact ⟨rfl, Nat.sub_self _⟩
  · intro hws
    have hlt : s.M + 1 < ws := hws
    simp only [toWindowed, if_pos hlt]

/-- Witness for C8 on a concrete `1 × 1 × 1` tensor with window sizes 2
and 3. -/
theorem toWindowed_overflow_spec_witness :
    ((toWindowed (ofList [[[0]]]) 2 none).isSome = true ∧
      ((toWindowed (ofList [[[0]]]) 2 none).getD defaultSpikes).M = 0) ∧
    toWindowed (ofList [[[0]]]) 4 none = none :=
  ⟨(toWindowed_overflow_spec (ofList [[[0]]]) 2 none rfl).1 rfl,
   (toWindowed_overflow_spec (ofList [[[0]]]) 4 none rfl).2 (by decide)⟩

/-- C6: whenever the global maximum covariance entry is a nonzero value
`mx` (and the slice has at least 2 time-bin samples, so the per-trial
covariances are defined), every matrix returned by `covariance` is
symmetric and, after the shared division by `mx`, every entry lies within
`[-1, 1]`. -/
theorem covariance_symmetric_normalized (s : Spikes) (trials : Option (List ℕ))
    (start : ℕ) (stop : Option ℕ) (mx : ℚ)
    (hmx : covGlobalMax s trials start stop = some mx) (hne : mx ≠ 0)
    (hm : 2 ≤ covSamples s start (stopEff s stop)) :
    ∀ Q ∈ (covariance s trials start stop).getD [], ∀ i < s.N, ∀ j < s.N,
      Q i j = Q j i ∧ -1 ≤ Q i j ∧ Q i j ≤ 1 := by
  intro Q hQ i hi j hj
  by_cases h1 : (effTrials trials s.T).all (· < s.T) = true
  swap
  · rw [covariance] at hQ
    simp only [if_neg h1, Option.getD_none] at hQ
    exact absurd hQ (List.not_mem_nil Q)
  by_cases h2 : (effTrials trials s.T).all
      (· < (effTrials trials s.T).length) = true
  swap
  · rw [covariance] at hQ
    simp only [if_pos h1, if_neg h2, Option.getD_none] at hQ
    exact absurd hQ (List.not_mem_nil Q)
  have hmax : (covEntries s (effTrials trials s.T) start
      (covSamples s start (stopEff s stop))).maximum = some mx := hmx
  have hcov : covariance s trials start stop =
      some ((covRaw s (effTrials trials s.T) start
        (covSamples s start (stopEff s stop))).map (fun R i j => R i j / mx)) := by
    rw [covariance]
    simp only [if_pos h1, if_pos h2, hmax]
  rw [hcov, Option.getD_some] at hQ
  obtain ⟨R, hR, rfl⟩ := List.mem_map.mp hQ
  obtain ⟨t, htmem, hRt⟩ := List.mem_map.mp hR
  have ht : t < (effTrials trials s.T).length := List.mem_range.mp htmem
  have hRD : (covRaw s (effTrials trials s.T) start
      (covSamples s start (stopEff s stop))).getD t zeroMat = R := by
    rw [covRaw_getD _ _ _ _ _ ht, ← hRt]
  have hmemle : ∀ a < s.N, ∀ b < s.N, R a b ≤ mx := by
    intro a ha b hb
    have hm' := covEntries_mem s (effTrials trials s.T) start
      (covSamples s start (stopEff s stop)) t a b ht ha hb
    rw [hRD] at hm'
    exact_mod_cast List.le_maximum_of_mem hm' hmax
  have hRx : R = npCov (covSub s (effTrials trials s.T) start
      ((effTrials trials s.T).getD t 0)) (covSamples s start (stopEff s stop)) := by
    rw [← hRt]
  have hdiagi : 0 ≤ R i i := by rw [hRx]; exact npCov_diag_nonneg _ _ _
  have hdiagj : 0 ≤ R j j := by rw [hRx]; exact npCov_diag_nonneg _ _ _
  have hmxpos : 0 < mx :=
    lt_of_le_of_ne (le_trans hdiagi (hmemle i hi i hi)) (Ne.symm hne)
  have hsq : (R i j) ^ 2 ≤ R i i * R j j := by
    rw [hRx]; exact npCov_sq_le _ _ _ _
  have hsq2 : (R i j) ^ 2 ≤ mx ^ 2 := by
    calc (R i j) ^ 2 ≤ R i i * R j j := hsq
      _ ≤ mx * mx :=
        mul_le_mul (hmemle i hi i hi) (hmemle j hj j hj) hdiagj (le_of_lt hmxpos)
      _ = mx ^ 2 := (pow_two mx).symm
  have hlo : -mx ≤ R i j := by nlinarith [sq_nonneg (R i j + mx)]
  have hhi : R i j ≤ mx := hmemle i hi j hj
  refine ⟨?_, ?_, ?_⟩
  · show R i j / mx = R j i / mx
    rw [hRx, npCov_symm]
  · show -1 ≤ R i j / mx
    rw [le_div_iff₀ hmxpos]
    linarith
  · show R i j / mx ≤ 1
    rw [div_le_one hmxpos]
    exact hhi

/-- Witness for C6 on the concrete tensor `[[[1,0],[0,1]]]` whose global
maximum (raw) covariance entry is `1/2`. -/
theorem covariance_symmetric_normalized_witness :
    covGlobalMax (ofList [[[1, 0], [0, 1]]]) none 0 none = some (1/2) ∧
    (1/2 : ℚ) ≠ 0 ∧
    2 ≤ covSamples (ofList [[[1, 0], [0, 1]]]) 0
      (stopEff (ofList [[[1, 0], [0, 1]]]) none) ∧
    ∀ Q ∈ (covariance (ofList [[[1, 0], [0, 1]]]) none 0 none).getD [],
      ∀ i < (ofList [[[1, 0], [0, 1]]]).N, ∀ j < (ofList [[[1, 0], [0, 1]]]).N,
        Q i j = Q j i ∧ -1 ≤ Q i j ∧ Q i j ≤ 1 := by
  have hmx : covGlobalMax (ofList [[[1, 0], [0, 1]]]) none 0 none = some (1/2) := by
    norm_num [covGlobalMax, covEntries, covRaw, covSub, covSamples, stopEff,
      effTrials, npCov, rowMean, covDenom, zeroMat, ofList, Finset.sum_range_succ,
      List.range_succ, List.maximum_cons]
    rfl
  exact ⟨hmx, by norm_num, by decide,
    covariance_symmetric_normalized (ofList [[[1, 0], [0, 1]]]) none 0 none
      (1/2) hmx (by norm_num) (by decide)⟩

/-- C9: with target count `K = N` (or no target count), the Activity
Ranker's `selected_indices` is a permutation of all source indices
`0, …, N-1` with no omissions or duplicates, and the recorded
`mean_activity` sequence is non-decreasing along `selected_indices`. -/
theorem restrictMostActive_full_selection (s : Spikes) (top : Option ℕ)
    (h : top = none ∨ top = some s.N) :
    ((restrictMostActive s top).1).Perm (List.range s.N) ∧
    (restrictMostActive s top).2.1 =
      ((restrictMostActive s top).1).map (activity s) ∧
    List.Sorted (· ≤ ·) ((restrictMostActive s top).2.1) := by
  have hK : (restrictMostActive s top).1 =
      (argsortActivity s).drop ((argsortActivity s).length - s.N) := by
    rcases h with rfl | rfl
    · rfl
    · show (argsortActivity s).drop
        ((argsortActivity s).length - if s.N = 0 then s.N else s.N) = _
      rw [ite_self]
  have hlen : (argsortActivity s).length = s.N := by
    rw [argsortActivity, (List.mergeSort_perm (List.range s.N) _).length_eq,
      List.length_range]
  have hsel : (restrictMostActive s top).1 = argsortActivity s := by
    rw [hK, hlen, Nat.sub_self, List.drop_zero]
  have hpairwise : (argsortActivity s).Pairwise
      (fun a b => decide (activity s a ≤ activity s b) = true) := by
    rw [argsortActivity]
    exact List.sorted_mergeSort
      (fun a b c h1 h2 => decide_eq_true
        (le_trans (@of_decide_eq_true (activity s a ≤ activity s b) _ h1)
          (@of_decide_eq_true (activity s b ≤ activity s c) _ h2)))
      (fun a b => by
        rcases le_total (activity s a) (activity s b) with hab | hab <;>
          simp [hab])
      (List.range s.N)
  refine ⟨?_, rfl, ?_⟩
  · rw [hsel, argsortActivity]
    exact List.mergeSort_perm (List.range s.N) _
  · show List.Sorted (· ≤ ·) (((restrictMostActive s top).1).map (activity s))
    rw [hsel]
    exact List.Pairwise.map (activity s)
      (fun a b hab => of_decide_eq_true hab) hpairwise

/-- Witness for C9 on a concrete `1 × 3 × 2` tensor with no target count. -/
theorem restrictMostActive_full_selection_witness :
    ((restrictMostActive (ofList [[[1, 0], [1, 1], [0, 0]]]) none).1).Perm
      (List.range 3) ∧
    (restrictMostActive (ofList [[[1, 0], [1, 1], [0, 0]]]) none).2.1 =
      ((restrictMostActive (ofList [[[1, 0], [1, 1], [0, 0]]]) none).1).map
        (activity (ofList [[[1, 0], [1, 1], [0, 0]]])) ∧
    List.Sorted (· ≤ ·)
      ((restrictMostActive (ofList [[[1, 0], [1, 1], [0, 0]]]) none).2.1) :=
  restrictMostActive_full_selection (ofList [[[1, 0], [1, 1], [0, 0]]]) none
    (Or.inl rfl)

/-- C10: passing the empty list as `trials` to `to_windowed` (both paths),
`rasterize` and `covariance` behaves identically to passing no `trials`
argument — the empty list is falsy in Python, so `trials or range(T)`
selects all trials in both cases. -/
theorem emptyTrials_defaults (s : Spikes) (ws start : ℕ) (stop : Option ℕ) :
    toWindowed s ws (some []) = toWindowed s ws none ∧
    toWindowedReshaped s ws (some []) = toWindowedReshaped s ws none ∧
    rasterize s (some []) start stop = rasterize s none start stop ∧
    covariance s (some []) start stop = covariance s none start stop :=
  ⟨rfl, rfl, rfl, rfl⟩

/-- C1 (code bug): `covariance` indexes the already trial-sub-selected
array `sub_spikes_arr` by the original trial id instead of its position.
On a 2-trial tensor, `trials=[1]` raises an IndexError (`none`), and
`trials=[1, 0]` returns the two matrices swapped: position 0 holds the
(normalized) covariance of trial 0, not of selected trial `trials[0] = 1`
(the trial-0 variance is `0` and the trial-1 variance is `1/2`, so the
claimed output would be `[1, 0]`, but the code returns `[0, 1]`). -/
theorem covariance_trial_indexing_bug :
    covariance (ofList [[[0, 0]], [[1, 0]]]) (some [1]) 0 none = none ∧
    ((covariance (ofList [[[0, 0]], [[1, 0]]]) (some [1, 0]) 0 none).getD
      []).getD 0 zeroMat 0 0 = 0 ∧
    ((covariance (ofList [[[0, 0]], [[1, 0]]]) (some [1, 0]) 0 none).getD
      []).getD 1 zeroMat 0 0 = 1 := by
  refine ⟨rfl, ?_, ?_⟩ <;>
  · rw [covariance]
    norm_num [covEntries, covRaw, covSub, covSamples, stopEff, effTrials, npCov,
      rowMean, covDenom, zeroMat, ofList, Finset.sum_range_succ, List.range_succ,
      List.maximum_cons]

/-- C2 (code bug): on an all-zero tensor the global maximum covariance
entry is `0`, yet `covariance` does not raise — it divides by the zero
maximum (producing NaN in numpy) and returns a value.  No
DegenerateInputError guard exists in the code. -/
theorem covariance_zero_divisor_unguarded :
    covGlobalMax (ofList [[[0, 0], [0, 0]]]) none 0 none = some 0 ∧
    (covariance (ofList [[[0, 0], [0, 0]]]) none 0 none).isSome = true := by
  constructor
  · norm_num [covGlobalMax, covEntries, covRaw, covSub, covSamples, stopEff,
      effTrials, npCov, rowMean, covDenom, zeroMat, ofList, Finset.sum_range_succ,
      List.range_succ, List.maximum_cons]
    rfl
  · rw [covariance]
    norm_num [covEntries, covRaw, covSub, covSamples, stopEff, effTrials, npCov,
      rowMean, covDenom, zeroMat, ofList, Finset.sum_range_succ, List.range_succ,
      List.maximum_cons]

end HDNet
